import Mathlib

/-!
Verification of the space-switch engine in `aleha_tools/spaceswitch.py`
(repository Alehaaaa/camstool).

The development shallowly embeds the non-UI logic of the module:

* `GimbalAnalyzer` — per-order gimbal scoring (`compute_gimbal_percentage`,
  `get_middle_axis_value`, `convert_order_string`, `_rotation_at_time`,
  `compute_all_percentages`, `classify_percentages`);
* the enum-label cleaning step of `SpaceSwitchAlehaWidget.getEnums`;
* the option dispatch table built in `SpaceSwitchAlehaWidget.refresh`;
* the bake planning and two-pass bake of `_collect_keyframes` /
  `multiple_frames`, with the host's current-time cursor made explicit;
* the temporary-key branch and the `finally` cleanup of `apply_changes`,
  with host failures injected as explicit parameters.

Host (Maya) primitives — attribute reads, keyframe queries, the Euler
`reorderIt`, world transforms — are external collaborators; they appear as
opaque parameters or as explicit state fields.  Angle values are modelled as
rationals; the source stores radians and converts with
`radians_to_degrees`, a real scalar change of units that the embedding
absorbs by working directly with the angle in degrees.  Host time values are
modelled as rationals.
-/

/-! ### Python-style numeric primitives

`a % b` in Python (for floats) returns `a - b * floor (a / b)`, a value with
the sign of `b`; `int(x)` truncates toward zero. -/

/-- Python float modulo: `a % b = a - b * ⌊a / b⌋`. -/
def pymod (a b : ℚ) : ℚ := a - b * (⌊a / b⌋ : ℚ)

/-- Python `int(x)`: truncation toward zero. -/
def pytrunc (q : ℚ) : ℤ := if 0 ≤ q then ⌊q⌋ else -⌊-q⌋

/-! ### GimbalAnalyzer -/

/-- The six Maya rotation orders (`om.MEulerRotation.kXYZ` … `kZYX`). -/
inductive RotOrder where
  | xyz
  | yzx
  | zxy
  | xzy
  | yxz
  | zyx
deriving DecidableEq, Repr

/-- The `self.rotation_orders` dictionary of `GimbalAnalyzer.__init__`. -/
def rotation_orders : List (String × RotOrder) :=
  [("xyz", RotOrder.xyz), ("yzx", RotOrder.yzx), ("zxy", RotOrder.zxy),
   ("xzy", RotOrder.xzy), ("yxz", RotOrder.yxz), ("zyx", RotOrder.zyx)]

/-- `GimbalAnalyzer.convert_order_string`:
`self.rotation_orders.get(s, om.MEulerRotation.kZYX)`. -/
def convert_order_string (s : String) : RotOrder :=
  (((rotation_orders.find? (fun p => p.1 == s))).map Prod.snd).getD RotOrder.zyx

/-- An Euler rotation: three per-axis angles and a rotation order.  The
source manipulates `om.MEulerRotation` holding radians; this embedding keeps
the angles in degrees (the unit conversion `radians_to_degrees` of the
source is a scalar real map applied right before the percentage formula). -/
structure EulerRot where
  x : ℚ
  y : ℚ
  z : ℚ
  order : RotOrder
deriving DecidableEq, Repr

/-- `GimbalAnalyzer.get_middle_axis_value`: the order-dependent middle-axis
component, tabulated exactly as the source dictionary. -/
def get_middle_axis_value (rotation : EulerRot) : ℚ :=
  match rotation.order with
  | RotOrder.zxy => rotation.x
  | RotOrder.zyx => rotation.y
  | RotOrder.xzy => rotation.z
  | RotOrder.xyz => rotation.y
  | RotOrder.yzx => rotation.z
  | RotOrder.yxz => rotation.x

/-- The numeric core of `GimbalAnalyzer.compute_gimbal_percentage` applied
to the middle-axis angle already converted to degrees:
`int(abs(((mid + 90) % 180) - 90) / 90 * 100)`. -/
def gimbal_percentage_deg (mid : ℚ) : ℤ :=
  pytrunc (|pymod (mid + 90) 180 - 90| / 90 * 100)

/-- `GimbalAnalyzer.compute_gimbal_percentage` on a rotation whose
components are in degrees. -/
def compute_gimbal_percentage (rotation : EulerRot) : ℤ :=
  gimbal_percentage_deg (get_middle_axis_value rotation)

/-- The three `cmds.getAttr(f"{obj}.rotate?", time=t)` reads plus the
`rotateOrder` read used by `GimbalAnalyzer._rotation_at_time`.  A channel
read may come back `None` (modelled `Option`); the rotate-order read is the
raw integer before clamping. -/
structure RotChannels where
  rx : Option ℚ
  ry : Option ℚ
  rz : Option ℚ
  ro : ℤ
deriving DecidableEq, Repr

/-- Python `v or 0.0`: `None` (and a zero value) falls back to `0.0`. -/
def py_or_zero (v : Option ℚ) : ℚ :=
  match v with
  | none => 0
  | some x => if x = 0 then 0 else x

/-- The clamp `max(0, min(idx, len(order_list) - 1))` of
`GimbalAnalyzer._rotation_at_time` (the nonempty-list branch). -/
def clamp_rotate_order_index (idx : ℤ) (n : ℕ) : ℤ :=
  max 0 (min idx ((n : ℤ) - 1))

/-- `GimbalAnalyzer._rotation_at_time`, with the host reads supplied as
`ch`: missing channel values fall back to `0.0`, the rotate-order index is
clamped into the bounds of `order_list`, and an empty `order_list` falls
back to the literal `"xyz"`. -/
def rotation_at_time (ch : RotChannels) (order_list : List String) : EulerRot :=
  let idx : ℤ :=
    if order_list = [] then 0 else clamp_rotate_order_index ch.ro order_list.length
  let current_order_str : String :=
    if order_list = [] then "xyz" else order_list.getD idx.toNat "xyz"
  { x := py_or_zero ch.rx
    y := py_or_zero ch.ry
    z := py_or_zero ch.rz
    order := convert_order_string current_order_str }

/-- The key-time collection of `GimbalAnalyzer.compute_all_percentages`:
the set of distinct keyframe times of the three rotation channels, sorted;
the single current time when no rotation channel is keyed. -/
def gimbal_key_times (kx ky kz : List ℚ) (now : ℚ) : List ℚ :=
  let key_times := (kx ++ ky ++ kz).dedup
  let key_times := if key_times = [] then [now] else key_times
  List.insertionSort (· ≤ ·) key_times

/-- `GimbalAnalyzer.compute_all_percentages`.  `sample t` stands for the
host channel reads at time `t`; `reorder r o` stands for the external
`MEulerRotation.reorderIt` re-expression of `r` under order `o`; `kx ky kz`
are the `cmds.keyframe` query results for the three rotation channels and
`now` the current time.  For each candidate order the loop keeps the
largest per-time percentage (`if g > worst: worst = g`, starting at 0). -/
def compute_all_percentages (sample : ℚ → RotChannels)
    (reorder : EulerRot → RotOrder → EulerRot)
    (kx ky kz : List ℚ) (now : ℚ) (order_list : List String) : List ℤ :=
  let key_times := gimbal_key_times kx ky kz now
  order_list.map (fun target_order_str =>
    let target_order := convert_order_string target_order_str
    key_times.foldl (fun worst t =>
      let rot_t := rotation_at_time (sample t) order_list
      let reordered := reorder rot_t target_order
      let g := compute_gimbal_percentage reordered
      if g > worst then g else worst) 0)

/-- Python `min` on a list of integers (the caller guarantees the list is
nonempty; `0` stands for the error case). -/
def list_min : List ℤ → ℤ
  | [] => 0
  | x :: xs => xs.foldl min x

/-- `GimbalAnalyzer.classify_percentages`: all labels empty when the list
is empty or all scores are identical; otherwise `best = min(percentages)`
and each score is labelled from `diff = val - best`. -/
def classify_percentages (percentages : List ℤ) : List String :=
  if percentages = [] ∨ percentages.dedup.length = 1 then
    List.replicate percentages.length ""
  else
    let best := list_min percentages
    percentages.map (fun val =>
      let diff := val - best
      if diff = 0 then "Best"
      else if diff ≤ 2 then "Good"
      else if diff ≤ 6 then "OK"
      else "")

/-! ### Helper lemmas on Python `min`/`max` folds -/

lemma foldl_min_le (xs : List ℤ) (x : ℤ) :
    xs.foldl min x ≤ x ∧ ∀ y ∈ xs, xs.foldl min x ≤ y := by
  induction xs generalizing x with
  | nil => exact ⟨le_refl x, by simp⟩
  | cons a t ih =>
    have h := ih (min x a)
    refine ⟨le_trans h.1 (min_le_left _ _), ?_⟩
    intro y hy
    rcases List.mem_cons.mp hy with rfl | hy
    · exact le_trans h.1 (min_le_right _ _)
    · exact h.2 y hy

lemma foldl_min_mem (xs : List ℤ) (x : ℤ) :
    xs.foldl min x = x ∨ xs.foldl min x ∈ xs := by
  induction xs generalizing x with
  | nil => exact Or.inl rfl
  | cons a t ih =>
    rw [List.foldl_cons]
    rcases ih (min x a) with h | h
    · rw [h]
      rcases min_choice x a with hc | hc
      · rw [hc]; exact Or.inl rfl
      · rw [hc]; exact Or.inr (List.mem_cons_self a t)
    · exact Or.inr (List.mem_cons_of_mem a h)

lemma list_min_spec (ps : List ℤ) (h : ps ≠ []) :
    list_min ps ∈ ps ∧ ∀ x ∈ ps, list_min ps ≤ x := by
  cases ps with
  | nil => exact absurd rfl h
  | cons a t =>
    constructor
    · rcases foldl_min_mem t a with h1 | h1
      · rw [list_min, h1]; exact List.mem_cons_self a t
      · exact List.mem_cons_of_mem a h1
    · intro x hx
      rcases List.mem_cons.mp hx with rfl | hx
      · exact (foldl_min_le t x).1
      · exact (foldl_min_le t a).2 x hx

/-- Claim C1 counterexample: on the scores `[40, 95, 12]` the analyzer
labels the MINIMUM score (12, index 2) as `"Best"`, not the maximum score
(95, index 1) as the claim states. -/
theorem classify_percentages_best_is_min_cex :
    classify_percentages [40, 95, 12] = ["", "", "Best"]
    ∧ classify_percentages [40, 95, 12] ≠ ["", "Best", ""] := by decide

/-- Claim C1 (amended): the gimbal scores are a badness measure, so
`classify_percentages` labels `"Best"` exactly the orders whose score
equals the MINIMUM of the list (when not all scores are identical), and
assigns each order its tier from `diff = score - min` as `"Best"` when
`diff = 0`, `"Good"` when `diff ≤ 2`, `"OK"` when `diff ≤ 6`, else the
empty label; for `[40, 95, 12]` the tiers are `["", "", "Best"]`; when all
scores are identical every label is empty. -/
theorem classify_percentages_spec (ps : List ℤ) (i : ℕ)
    (hi : i < ps.length) (hne : ps.dedup.length ≠ 1) :
    (classify_percentages ps).length = ps.length
    ∧ list_min ps ∈ ps
    ∧ (∀ x ∈ ps, list_min ps ≤ x)
    ∧ ((classify_percentages ps).getD i "" = "Best" ↔ ps.getD i 0 = list_min ps)
    ∧ (classify_percentages ps).getD i "" =
        (if ps.getD i 0 - list_min ps = 0 then "Best"
         else if ps.getD i 0 - list_min ps ≤ 2 then "Good"
         else if ps.getD i 0 - list_min ps ≤ 6 then "OK" else "")
    ∧ (∀ qs : List ℤ, qs.dedup.length = 1 →
        classify_percentages qs = List.replicate qs.length "")
    ∧ classify_percentages [40, 95, 12] = ["", "", "Best"] := by
  have hne' : ps ≠ [] := by
    intro h; rw [h] at hi; exact absurd hi (by simp)
  have hcond : ¬ (ps = [] ∨ ps.dedup.length = 1) := by
    intro h; rcases h with h | h
    · exact hne' h
    · exact hne h
  have hdef : classify_percentages ps =
      ps.map (fun val =>
        if val - list_min ps = 0 then "Best"
        else if val - list_min ps ≤ 2 then "Good"
        else if val - list_min ps ≤ 6 then "OK" else "") := by
    rw [classify_percentages, if_neg hcond]
  have hlen : (classify_percentages ps).length = ps.length := by
    rw [hdef, List.length_map]
  have hgetD : (classify_percentages ps).getD i "" =
      (if ps.getD i 0 - list_min ps = 0 then "Best"
       else if ps.getD i 0 - list_min ps ≤ 2 then "Good"
       else if ps.getD i 0 - list_min ps ≤ 6 then "OK" else "") := by
    have hi' : i < (classify_percentages ps).length := by rw [hlen]; exact hi
    rw [List.getD_eq_getElem _ _ hi', List.getD_eq_getElem _ _ hi]
    simp only [hdef, List.getElem_map]
  refine ⟨hlen, (list_min_spec ps hne').1, (list_min_spec ps hne').2, ?_, hgetD, ?_, by decide⟩
  · rw [hgetD]
    constructor
    · intro h
      by_cases h0 : ps.getD i 0 - list_min ps = 0
      · linarith [sub_eq_zero.mp h0]
      · rw [if_neg h0] at h
        by_cases h2 : ps.getD i 0 - list_min ps ≤ 2
        · rw [if_pos h2] at h; exact absurd h (by decide)
        · rw [if_neg h2] at h
          by_cases h6 : ps.getD i 0 - list_min ps ≤ 6
          · rw [if_pos h6] at h; exact absurd h (by decide)
          · rw [if_neg h6] at h; exact absurd h (by decide)
    · intro h
      rw [if_pos (by rw [h]; ring)]
  · intro qs hqs
    rw [classify_percentages, if_pos (Or.inr hqs)]

/-- Witness for the amended C1 theorem at the concrete scores
`[40, 95, 12]`, index 1 (the maximum): its label is `"Best"` exactly when
95 is the minimum — which it is not. -/
theorem classify_percentages_spec_witness :
    (classify_percentages [40, 95, 12]).getD 1 "" = "Best"
      ↔ ([40, 95, 12] : List ℤ).getD 1 0 = list_min [40, 95, 12] :=
  (classify_percentages_spec [40, 95, 12] 1 (by decide) (by decide)).2.2.2.1

/-! ### Properties of the Python modulo on rationals -/

lemma pymod_eq_mul_fract (a b : ℚ) (hb : b ≠ 0) :
    pymod a b = b * Int.fract (a / b) := by
  rw [pymod, Int.fract, mul_sub, mul_div_cancel₀ a hb]

lemma pymod_nonneg (a b : ℚ) (hb : 0 < b) : 0 ≤ pymod a b := by
  rw [pymod_eq_mul_fract a b (ne_of_gt hb)]
  exact mul_nonneg (le_of_lt hb) (Int.fract_nonneg _)

lemma pymod_lt (a b : ℚ) (hb : 0 < b) : pymod a b < b := by
  rw [pymod_eq_mul_fract a b (ne_of_gt hb)]
  calc b * Int.fract (a / b) < b * 1 :=
        (mul_lt_mul_left hb).mpr (Int.fract_lt_one _)
    _ = b := mul_one b

lemma pymod_eq_zero_iff (a b : ℚ) (hb : 0 < b) :
    pymod a b = 0 ↔ ∃ k : ℤ, a = b * k := by
  rw [pymod_eq_mul_fract a b (ne_of_gt hb)]
  constructor
  · intro h
    rcases mul_eq_zero.mp h with h | h
    · exact absurd h (ne_of_gt hb)
    · refine ⟨⌊a / b⌋, ?_⟩
      have : a / b = (⌊a / b⌋ : ℚ) := by
        have := sub_eq_zero.mp h
        rw [Int.fract] at h
        linarith [sub_eq_zero.mp h]
      calc a = a / b * b := (div_mul_cancel₀ a (ne_of_gt hb)).symm
        _ = (⌊a / b⌋ : ℚ) * b := by rw [← this]
        _ = b * (⌊a / b⌋ : ℚ) := mul_comm _ _
  · rintro ⟨k, rfl⟩
    have : (b * (k : ℚ)) / b = (k : ℚ) := by
      rw [mul_comm, mul_div_assoc, div_self (ne_of_gt hb), mul_one]
    rw [this, Int.fract_intCast, mul_zero]

/-- Claim C2 counterexample: at the ±90° gimbal singularity the stored
score is 100, not 0 as the claim states (the stored value grows TOWARD the
singularity); and the source truncates with `int(...)` instead of
rounding: at middle angle 50° it stores 55 where `round(500/9) = 56`. -/
theorem gimbal_percentage_at_singularity_cex :
    gimbal_percentage_deg 90 = 100
    ∧ (100 : ℤ) ≠ 0
    ∧ gimbal_percentage_deg 50 = 55
    ∧ round ((500 : ℚ) / 9) = 56
    ∧ |pymod ((50 : ℚ) + 90) 180 - 90| / 90 * 100 = (500 : ℚ) / 9 := by
  refine ⟨?_, by decide, ?_, ?_, ?_⟩
  · norm_num [gimbal_percentage_deg, pymod, pytrunc]
  · norm_num [gimbal_percentage_deg, pymod, pytrunc]
  · norm_num [round_eq]
  · norm_num [pymod]

/-- Claim C2 (amended): the per-time gimbal score equals
`int(|((middle_deg + 90) mod 180) - 90| / 90 * 100)` (truncation, not
rounding) applied to the order's middle-axis angle in degrees; it is an
integer in `[0, 100]`, equals 100 exactly when the middle axis sits at the
±90° gimbal singularity (`middle_deg + 90` an integer multiple of 180°),
and equals 0 when maximally far from it (as at 0° and 180°) — so a higher
stored score means CLOSER to gimbal lock. -/
theorem gimbal_percentage_spec :
    (∀ mid : ℚ, gimbal_percentage_deg mid =
        pytrunc (|pymod (mid + 90) 180 - 90| / 90 * 100))
    ∧ (∀ mid : ℚ, 0 ≤ gimbal_percentage_deg mid ∧ gimbal_percentage_deg mid ≤ 100)
    ∧ (∀ mid : ℚ, gimbal_percentage_deg mid = 100 ↔ ∃ k : ℤ, mid + 90 = 180 * k)
    ∧ (∀ rotation : EulerRot, compute_gimbal_percentage rotation =
        gimbal_percentage_deg (get_middle_axis_value rotation))
    ∧ gimbal_percentage_deg 0 = 0
    ∧ gimbal_percentage_deg 180 = 0
    ∧ gimbal_percentage_deg 90 = 100
    ∧ gimbal_percentage_deg (-90) = 100 := by
  have h180 : (0 : ℚ) < 180 := by norm_num
  have hm0 : ∀ mid : ℚ, 0 ≤ pymod (mid + 90) 180 := fun mid => pymod_nonneg _ _ h180
  have hm1 : ∀ mid : ℚ, pymod (mid + 90) 180 < 180 := fun mid => pymod_lt _ _ h180
  have hv : ∀ mid : ℚ, |pymod (mid + 90) 180 - 90| ≤ 90 := by
    intro mid
    have := hm0 mid
    have := hm1 mid
    rw [abs_le]
    constructor <;> linarith
  have hvpos : ∀ mid : ℚ, 0 ≤ |pymod (mid + 90) 180 - 90| := fun mid => abs_nonneg _
  have harg0 : ∀ mid : ℚ, 0 ≤ |pymod (mid + 90) 180 - 90| / 90 * 100 := by
    intro mid
    exact mul_nonneg (div_nonneg (hvpos mid) (by norm_num)) (by norm_num)
  have harg1 : ∀ mid : ℚ, |pymod (mid + 90) 180 - 90| / 90 * 100 ≤ 100 := by
    intro mid
    have h := hv mid
    rw [div_mul_eq_mul_div, div_le_iff₀ (by norm_num : (0:ℚ) < 90)]
    linarith
  have hfloor : ∀ mid : ℚ, gimbal_percentage_deg mid =
      ⌊|pymod (mid + 90) 180 - 90| / 90 * 100⌋ := by
    intro mid
    rw [gimbal_percentage_deg, pytrunc, if_pos (harg0 mid)]
  refine ⟨fun mid => rfl, ?_, ?_, fun rotation => rfl, ?_, ?_, ?_, ?_⟩
  · intro mid
    rw [hfloor mid]
    constructor
    · exact Int.floor_nonneg.mpr (harg0 mid)
    · calc ⌊|pymod (mid + 90) 180 - 90| / 90 * 100⌋ ≤ ⌊(100 : ℚ)⌋ :=
            Int.floor_le_floor (harg1 mid)
        _ = 100 := by norm_num
  · intro mid
    rw [hfloor mid]
    have key : ⌊|pymod (mid + 90) 180 - 90| / 90 * 100⌋ = 100 ↔
        pymod (mid + 90) 180 = 0 := by
      constructor
      · intro h
        have h100 : (100 : ℚ) ≤ |pymod (mid + 90) 180 - 90| / 90 * 100 := by
          have := Int.le_floor.mp (le_of_eq h.symm)
          exact_mod_cast this
        have hv90 : |pymod (mid + 90) 180 - 90| = 90 := by
          have h' := harg1 mid
          have : |pymod (mid + 90) 180 - 90| / 90 * 100 = 100 := le_antisymm h' h100
          rw [div_mul_eq_mul_div] at this
          have := (div_eq_iff (by norm_num : (90:ℚ) ≠ 0)).mp this
          linarith
        rcases (abs_eq (by norm_num : (0:ℚ) ≤ 90)).mp hv90 with h' | h'
        · exact absurd h' (by have := hm1 mid; intro hc; linarith)
        · linarith
      · intro h
        rw [h]
        norm_num
    rw [key]
    exact pymod_eq_zero_iff (mid + 90) 180 h180
  · norm_num [gimbal_percentage_deg, pymod, pytrunc]
  · norm_num [gimbal_percentage_deg, pymod, pytrunc]
  · norm_num [gimbal_percentage_deg, pymod, pytrunc]
  · norm_num [gimbal_percentage_deg, pymod, pytrunc]

lemma gimbal_percentage_deg_nonneg (mid : ℚ) : 0 ≤ gimbal_percentage_deg mid := by
  have harg0 : 0 ≤ |pymod (mid + 90) 180 - 90| / 90 * 100 :=
    mul_nonneg (div_nonneg (abs_nonneg _) (by norm_num)) (by norm_num)
  rw [gimbal_percentage_deg, pytrunc, if_pos harg0]
  exact Int.floor_nonneg.mpr harg0

/-! ### Helper lemmas on the `worst`-tracking fold of
`compute_all_percentages` -/

lemma foldl_worst_ge (g : ℚ → ℤ) (l : List ℚ) (w : ℤ) :
    w ≤ l.foldl (fun worst t => if g t > worst then g t else worst) w
    ∧ ∀ t ∈ l, g t ≤ l.foldl (fun worst t => if g t > worst then g t else worst) w := by
  induction l generalizing w with
  | nil => exact ⟨le_refl w, by simp⟩
  | cons a tl ih =>
    rw [List.foldl_cons]
    have hstep : w ≤ (if g a > w then g a else w) ∧ g a ≤ (if g a > w then g a else w) := by
      by_cases h : g a > w
      · rw [if_pos h]; exact ⟨le_of_lt h, le_refl _⟩
      · rw [if_neg h]; exact ⟨le_refl w, le_of_not_lt h⟩
    have h := ih (if g a > w then g a else w)
    refine ⟨le_trans hstep.1 h.1, ?_⟩
    intro t ht
    rcases List.mem_cons.mp ht with rfl | ht
    · exact le_trans hstep.2 h.1
    · exact h.2 t ht

lemma foldl_worst_mem (g : ℚ → ℤ) (l : List ℚ) (w : ℤ) :
    l.foldl (fun worst t => if g t > worst then g t else worst) w = w
    ∨ ∃ t ∈ l, l.foldl (fun worst t => if g t > worst then g t else worst) w = g t := by
  induction l generalizing w with
  | nil => exact Or.inl rfl
  | cons a tl ih =>
    rw [List.foldl_cons]
    rcases ih (if g a > w then g a else w) with h | h
    · rw [h]
      by_cases hc : g a > w
      · rw [if_pos hc]
        exact Or.inr ⟨a, List.mem_cons_self a tl, rfl⟩
      · rw [if_neg hc]
        exact Or.inl rfl
    · rcases h with ⟨t, ht, heq⟩
      exact Or.inr ⟨t, List.mem_cons_of_mem a ht, heq⟩


lemma foldl_worst_attained (g : ℚ → ℤ) (l : List ℚ) (hl : l ≠ [])
    (h0 : ∀ t ∈ l, 0 ≤ g t) :
    ∃ t ∈ l, l.foldl (fun worst t => if g t > worst then g t else worst) 0 = g t := by
  rcases foldl_worst_mem g l 0 with h | h
  · rcases List.exists_mem_of_ne_nil l hl with ⟨a, ha⟩
    refine ⟨a, ha, ?_⟩
    have hle : g a ≤ 0 := by
      have h2 := (foldl_worst_ge g l 0).2 a ha
      rw [h] at h2
      exact h2
    rw [h]
    exact (le_antisymm hle (h0 a ha)).symm
  · exact h

/-- Claim C7 (confirmed): gimbal analysis evaluates each candidate order at
exactly the distinct times keyed on any of the three rotation channels (the
single current time when none exist), and records for each order the
worst-case (largest, badness semantics) per-time value over those times —
attained at some sampled time, never an average — so one near-singular
frame determines the order's score. -/
theorem compute_all_percentages_spec (sample : ℚ → RotChannels)
    (reorder : EulerRot → RotOrder → EulerRot)
    (kx ky kz : List ℚ) (now : ℚ) (order_list : List String) (i : ℕ)
    (hi : i < order_list.length) :
    (∀ t, t ∈ gimbal_key_times kx ky kz now ↔
       (if kx ++ ky ++ kz = [] then t = now else (t ∈ kx ∨ t ∈ ky ∨ t ∈ kz)))
    ∧ gimbal_key_times kx ky kz now ≠ []
    ∧ (compute_all_percentages sample reorder kx ky kz now order_list).length
        = order_list.length
    ∧ (∀ t ∈ gimbal_key_times kx ky kz now,
        compute_gimbal_percentage
            (reorder (rotation_at_time (sample t) order_list)
              (convert_order_string (order_list.getD i "")))
          ≤ (compute_all_percentages sample reorder kx ky kz now order_list).getD i 0)
    ∧ (∃ t ∈ gimbal_key_times kx ky kz now,
        (compute_all_percentages sample reorder kx ky kz now order_list).getD i 0 =
          compute_gimbal_percentage
            (reorder (rotation_at_time (sample t) order_list)
              (convert_order_string (order_list.getD i "")))) := by
  have hperm : List.Perm (gimbal_key_times kx ky kz now)
      (if (kx ++ ky ++ kz).dedup = [] then [now] else (kx ++ ky ++ kz).dedup) :=
    List.perm_insertionSort _ _
  have hmem : ∀ t, t ∈ gimbal_key_times kx ky kz now ↔
      (if kx ++ ky ++ kz = [] then t = now else (t ∈ kx ∨ t ∈ ky ∨ t ∈ kz)) := by
    intro t
    rw [hperm.mem_iff]
    by_cases h : kx ++ ky ++ kz = []
    · rw [if_pos h, if_pos (by rw [h]; rfl)]
      simp
    · rw [if_neg h, if_neg (fun hc => h ((List.dedup_eq_nil _).mp hc))]
      rw [List.mem_dedup, List.mem_append, List.mem_append]
      tauto
  have hne : gimbal_key_times kx ky kz now ≠ [] := by
    intro hc
    have hlen := hperm.length_eq
    rw [hc] at hlen
    by_cases h : (kx ++ ky ++ kz).dedup = []
    · rw [if_pos h] at hlen
      exact absurd hlen.symm (by simp)
    · rw [if_neg h] at hlen
      exact h (List.eq_nil_of_length_eq_zero hlen.symm)
  have hod : order_list.getD i "" = order_list[i] := List.getD_eq_getElem _ _ hi
  have hlen : (compute_all_percentages sample reorder kx ky kz now order_list).length
      = order_list.length := List.length_map _ _
  have hi' : i < (compute_all_percentages sample reorder kx ky kz now order_list).length := by
    rw [hlen]
    exact hi
  have hgetD : (compute_all_percentages sample reorder kx ky kz now order_list).getD i 0 =
      (gimbal_key_times kx ky kz now).foldl (fun worst t =>
        if compute_gimbal_percentage
            (reorder (rotation_at_time (sample t) order_list)
              (convert_order_string order_list[i])) > worst
        then compute_gimbal_percentage
            (reorder (rotation_at_time (sample t) order_list)
              (convert_order_string order_list[i]))
        else worst) 0 := by
    rw [List.getD_eq_getElem _ _ hi']
    show (List.map _ order_list)[i] = _
    rw [List.getElem_map]
  refine ⟨hmem, hne, hlen, ?_, ?_⟩
  · intro t ht
    rw [hod, hgetD]
    exact (foldl_worst_ge (fun s =>
      compute_gimbal_percentage
        (reorder (rotation_at_time (sample s) order_list)
          (convert_order_string order_list[i])))
      (gimbal_key_times kx ky kz now) 0).2 t ht
  · have key := foldl_worst_attained (fun s =>
      compute_gimbal_percentage
        (reorder (rotation_at_time (sample s) order_list)
          (convert_order_string order_list[i])))
      (gimbal_key_times kx ky kz now) hne
      (fun t _ => gimbal_percentage_deg_nonneg _)
    rcases key with ⟨t, ht, heq⟩
    refine ⟨t, ht, ?_⟩
    rw [hod, hgetD]
    exact heq

/-- Witness for the C7 theorem: a concrete instantiation with keyframes at
times 1 and 5, two candidate orders, constant sampled channels and a
reorder that only relabels the order. -/
theorem compute_all_percentages_spec_witness :
    ∃ t ∈ gimbal_key_times [1, 5] [] [5] 0,
      (compute_all_percentages (fun _ => ⟨some 10, some 20, some 30, 0⟩)
          (fun r o => ⟨r.x, r.y, r.z, o⟩) [1, 5] [] [5] 0 ["xyz", "zyx"]).getD 0 0 =
        compute_gimbal_percentage
          ((fun r o => (⟨r.x, r.y, r.z, o⟩ : EulerRot))
            (rotation_at_time ((fun _ => (⟨some 10, some 20, some 30, 0⟩ : RotChannels)) t)
              ["xyz", "zyx"])
            (convert_order_string (["xyz", "zyx"].getD 0 ""))) :=
  (compute_all_percentages_spec (fun _ => ⟨some 10, some 20, some 30, 0⟩)
    (fun r o => ⟨r.x, r.y, r.z, o⟩) [1, 5] [] [5] 0 ["xyz", "zyx"] 0
    (by decide)).2.2.2.2

/-! ### Enum-label cleaning (`SpaceSwitchAlehaWidget.getEnums`)

The source cleans each raw enum option string with
`label = v.split("=", 1)[0].strip()` and keeps it only when
`any(c.isalnum() for c in label)`.  Strings are modelled as `List Char`. -/

/-- The characters Python `str.strip()` removes by default (ASCII). -/
def is_py_space (c : Char) : Bool :=
  c == ' ' || c == '\t' || c == '\n' || c == '\r' || c == '\x0b' || c == '\x0c'

/-- Leading-whitespace removal (the left half of `str.strip()`). -/
def py_strip_left (s : List Char) : List Char := s.dropWhile is_py_space

/-- Trailing-whitespace removal (the right half of `str.strip()`). -/
def py_strip_right (s : List Char) : List Char :=
  (s.reverse.dropWhile is_py_space).reverse

/-- Python `str.strip()`. -/
def py_strip (s : List Char) : List Char := py_strip_right (py_strip_left s)

/-- Python `v.split("=", 1)[0]`: everything before the first `'='`. -/
def split_eq_head (s : List Char) : List Char := s.takeWhile (fun c => c != '=')

/-- Model of Python `str.isalnum` on a character (ASCII letters/digits). -/
def py_isalnum (c : Char) : Bool := c.isAlphanum

/-- One label's cleaning step: `v.split("=", 1)[0].strip()`. -/
def clean_label (v : List Char) : List Char := py_strip (split_eq_head v)

/-- The label-cleaning loop of `getEnums`: clean every raw option string,
keep those containing at least one alphanumeric character. -/
def clean_enum_labels (raw : List (List Char)) : List (List Char) :=
  (raw.map clean_label).filter (fun label => label.any py_isalnum)

lemma dropWhile_dropWhile_self (p : Char → Bool) (l : List Char) :
    (l.dropWhile p).dropWhile p = l.dropWhile p := by
  induction l with
  | nil => rfl
  | cons a t ih =>
    by_cases h : p a
    · rw [List.dropWhile_cons, if_pos h, ih]
    · rw [List.dropWhile_cons, if_neg h, List.dropWhile_cons, if_neg h]

lemma dropWhile_eq_self_of_prefix (p : Char → Bool) {k m : List Char}
    (hk : k <+: m) (hm : m.dropWhile p = m) : k.dropWhile p = k := by
  cases k with
  | nil => rfl
  | cons c k2 =>
    rcases hk with ⟨rest, hrest⟩
    have hpc : p c = false := by
      by_contra hpc
      have hpc' : p c = true := by
        cases hc : p c
        · exact absurd hc hpc
        · rfl
      rw [← hrest, List.cons_append, List.dropWhile_cons, if_pos hpc'] at hm
      have hlen := congrArg List.length hm
      have hle : ((k2 ++ rest).dropWhile p).length ≤ (k2 ++ rest).length :=
        (List.dropWhile_suffix p).length_le
      rw [hlen] at hle
      simp at hle
    rw [List.dropWhile_cons, if_neg (by rw [hpc]; exact Bool.false_ne_true)]

lemma py_strip_right_front (s : List Char) : py_strip_right s <+: s := by
  rw [py_strip_right]
  have h : s.reverse.dropWhile is_py_space <:+ s.reverse := List.dropWhile_suffix _
  have h2 : (s.reverse.dropWhile is_py_space).reverse <+: s.reverse.reverse :=
    List.reverse_prefix.mpr h
  rw [List.reverse_reverse] at h2
  exact h2

lemma py_strip_right_idem (s : List Char) :
    py_strip_right (py_strip_right s) = py_strip_right s := by
  simp only [py_strip_right]
  rw [List.reverse_reverse, dropWhile_dropWhile_self]

lemma py_strip_left_of_stripped (s : List Char) :
    py_strip_left (py_strip_right (py_strip_left s)) = py_strip_right (py_strip_left s) := by
  have hm : (py_strip_left s).dropWhile is_py_space = py_strip_left s :=
    dropWhile_dropWhile_self is_py_space s
  exact dropWhile_eq_self_of_prefix is_py_space (py_strip_right_front (py_strip_left s)) hm

lemma py_strip_idem (s : List Char) : py_strip (py_strip s) = py_strip s := by
  rw [py_strip, py_strip, py_strip_left_of_stripped, py_strip_right_idem]

lemma takeWhile_eq_self_of_all (p : Char → Bool) (l : List Char)
    (h : ∀ c ∈ l, p c = true) : l.takeWhile p = l := by
  induction l with
  | nil => rfl
  | cons a t ih =>
    rw [List.takeWhile_cons, if_pos (h a (List.mem_cons_self a t)),
      ih (fun c hc => h c (List.mem_cons_of_mem a hc))]

lemma mem_clean_label_ne_eq (v : List Char) :
    ∀ c ∈ clean_label v, (c != '=') = true := by
  intro c hc
  have h1 : c ∈ split_eq_head v := by
    have hpre : clean_label v <+: py_strip_left (split_eq_head v) :=
      py_strip_right_front _
    have h2 : c ∈ py_strip_left (split_eq_head v) := hpre.subset hc
    have hsuf : py_strip_left (split_eq_head v) <:+ split_eq_head v :=
      List.dropWhile_suffix _
    exact hsuf.subset h2
  have h2 : c ∈ v.takeWhile (fun ch => ch != '=') := h1
  have h3 := List.mem_takeWhile_imp h2
  exact h3

lemma clean_label_idem (v : List Char) : clean_label (clean_label v) = clean_label v := by
  rw [clean_label, split_eq_head,
    takeWhile_eq_self_of_all _ (clean_label v) (mem_clean_label_ne_eq v)]
  exact py_strip_idem _

/-- Claim C9 (confirmed): the enum-label cleaning step of `getEnums`
(split off the value suffix at the first `'='`, strip surrounding
whitespace, drop labels with no alphanumeric character) is idempotent:
cleaning an already-cleaned label list returns it unchanged. -/
theorem clean_enum_labels_idempotent (raw : List (List Char)) :
    clean_enum_labels (clean_enum_labels raw) = clean_enum_labels raw := by
  have hmap : (clean_enum_labels raw).map clean_label = clean_enum_labels raw := by
    have h : ∀ l ∈ clean_enum_labels raw, clean_label l = l := by
      intro l hl
      have hl2 := List.mem_filter.mp hl
      rcases List.mem_map.mp hl2.1 with ⟨v, _, rfl⟩
      exact clean_label_idem v
    calc (clean_enum_labels raw).map clean_label
        = (clean_enum_labels raw).map id := List.map_congr_left h
      _ = clean_enum_labels raw := List.map_id _
  rw [clean_enum_labels, hmap]
  rw [List.filter_eq_self]
  intro l hl
  exact (List.mem_filter.mp hl).2

/-- Claim C10 (confirmed): gimbal analysis is total over arbitrary
rotation-order data — `convert_order_string` maps every string to one of
the six supported orders, defaulting to `zyx` on unrecognized labels;
`_rotation_at_time` clamps an out-of-range `rotateOrder` index into the
bounds of the (nonempty) order list, so its list lookup always hits a real
element; and missing channel reads are replaced by `0.0`. -/
theorem rotation_analysis_total (order_list : List String) (h : order_list ≠ []) :
    (∀ s : String, convert_order_string s ∈
      [RotOrder.xyz, RotOrder.yzx, RotOrder.zxy,
       RotOrder.xzy, RotOrder.yxz, RotOrder.zyx])
    ∧ (∀ s : String, rotation_orders.find? (fun p => p.1 == s) = none →
        convert_order_string s = RotOrder.zyx)
    ∧ (∀ idx : ℤ, 0 ≤ clamp_rotate_order_index idx order_list.length
        ∧ (clamp_rotate_order_index idx order_list.length).toNat < order_list.length)
    ∧ (∀ idx : ℤ,
        order_list.getD (clamp_rotate_order_index idx order_list.length).toNat "xyz"
          ∈ order_list)
    ∧ (∀ ch : RotChannels, ch.rx = none → (rotation_at_time ch order_list).x = 0)
    ∧ (∀ ch : RotChannels, ch.ry = none → (rotation_at_time ch order_list).y = 0)
    ∧ (∀ ch : RotChannels, ch.rz = none → (rotation_at_time ch order_list).z = 0) := by
  have hn : 0 < order_list.length := List.length_pos.mpr h
  have hclamp : ∀ idx : ℤ, 0 ≤ clamp_rotate_order_index idx order_list.length
      ∧ (clamp_rotate_order_index idx order_list.length).toNat < order_list.length := by
    intro idx
    have h1 : 0 ≤ clamp_rotate_order_index idx order_list.length := le_max_left 0 _
    have h2 : clamp_rotate_order_index idx order_list.length
        ≤ (order_list.length : ℤ) - 1 := by
      rw [clamp_rotate_order_index]
      exact max_le (by omega) (min_le_right _ _)
    exact ⟨h1, by omega⟩
  refine ⟨?_, ?_, hclamp, ?_, ?_, ?_, ?_⟩
  · intro s
    rcases hfind : rotation_orders.find? (fun p => p.1 == s) with _ | p
    · rw [convert_order_string, hfind]
      decide
    · rw [convert_order_string, hfind]
      have hp : p ∈ rotation_orders := List.mem_of_find?_eq_some hfind
      simp only [rotation_orders, List.mem_cons, List.not_mem_nil, or_false] at hp
      rcases hp with rfl | rfl | rfl | rfl | rfl | rfl <;> decide
  · intro s hfind
    rw [convert_order_string, hfind]
    rfl
  · intro idx
    have hlt := (hclamp idx).2
    rw [List.getD_eq_getElem _ _ hlt]
    exact List.getElem_mem _
  · intro ch hch
    show py_or_zero ch.rx = 0
    rw [hch]
    rfl
  · intro ch hch
    show py_or_zero ch.ry = 0
    rw [hch]
    rfl
  · intro ch hch
    show py_or_zero ch.rz = 0
    rw [hch]
    rfl

/-- Witness for the C10 theorem: the order list `["xyz", "yzx"]` with the
wildly out-of-range index 99 still clamps into bounds. -/
theorem rotation_analysis_total_witness :
    0 ≤ clamp_rotate_order_index 99 (["xyz", "yzx"] : List String).length
    ∧ (clamp_rotate_order_index 99 (["xyz", "yzx"] : List String).length).toNat
        < (["xyz", "yzx"] : List String).length :=
  (rotation_analysis_total ["xyz", "yzx"] (by decide)).2.2.1 99

/-! ### SwitchApplyEngine: bake planning and the two-pass bake
(`SpaceSwitchAlehaWidget._collect_keyframes` / `multiple_frames`) -/

/-- The all-keyframes half of `_collect_keyframes`:
`all_keys = set(sum([cmds.keyframe(t, query=True) or [] for t in targets], []))`
and `{frame: [t for t in targets if frame in (cmds.keyframe(t) or [])]
for frame in sorted(all_keys)}`.  `key_query t` stands for
`cmds.keyframe(t, query=True) or []`. -/
def collect_keyframes_all (key_query : String → List ℚ) (targets : List String) :
    List (ℚ × List String) :=
  let all_keys := (targets.map key_query).flatten.dedup
  (List.insertionSort (· ≤ ·) all_keys).map
    (fun frame => (frame, targets.filter (fun t => decide (frame ∈ key_query t))))

/-- The timeline-selection restriction of `_collect_keyframes`:
`{f: objs for f, objs in keyframes.items() if lo <= f <= hi}`. -/
def restrict_to_selection (plan : List (ℚ × List String)) (lo hi : ℚ) :
    List (ℚ × List String) :=
  plan.filter (fun fr => decide (lo ≤ fr.1 ∧ fr.1 ≤ hi))

/-- One observable host interaction of `multiple_frames`: a world-matrix
read (`cmds.xform(t, q=True, ws=True, matrix=True)`, pass A) or a
transform-preserving write (`do_xform`, pass B) for a node at a frame. -/
inductive BakeEvent where
  | capture (frame : ℚ) (node : String)
  | apply (frame : ℚ) (node : String)
deriving DecidableEq, Repr

/-- Whether a bake event is a pass-A capture. -/
def BakeEvent.isCapture : BakeEvent → Bool
  | BakeEvent.capture _ _ => true
  | BakeEvent.apply _ _ => false

/-- Pass A of `multiple_frames` as the list of host interactions it emits:
for each planned frame in plan order, one capture per node at that frame
(this is the loop filling `dictionary_xforms`). -/
def pass_a_events (plan : List (ℚ × List String)) : List BakeEvent :=
  plan.foldl (fun acc fr => acc ++ fr.2.map (fun n => BakeEvent.capture fr.1 n)) []

/-- Pass B of `multiple_frames`: for each planned frame in plan order, one
`do_xform` write per node at that frame (the loop over
`dictionary_xforms.items()`, which iterates in the same order it was
filled). -/
def pass_b_events (plan : List (ℚ × List String)) : List BakeEvent :=
  plan.foldl (fun acc fr => acc ++ fr.2.map (fun n => BakeEvent.apply fr.1 n)) []

/-- The full host-interaction trace of `multiple_frames`: the pass-A loop
runs to completion before the pass-B loop starts. -/
def multiple_frames_trace (plan : List (ℚ × List String)) : List BakeEvent :=
  pass_a_events plan ++ pass_b_events plan

lemma foldl_append_eq_bind {α β : Type} (f : α → List β) (l : List α)
    (init : List β) :
    l.foldl (fun acc a => acc ++ f a) init = init ++ l.flatMap f := by
  induction l generalizing init with
  | nil => rw [List.foldl_nil, List.flatMap_nil, List.append_nil]
  | cons a t ih =>
    rw [List.foldl_cons, ih, List.flatMap_cons, List.append_assoc]

lemma sorted_lt_of_sort_dedup (l : List ℚ) :
    List.Pairwise (· < ·) (List.insertionSort (· ≤ ·) l.dedup) := by
  have hs : List.Pairwise (· ≤ ·) (List.insertionSort (· ≤ ·) l.dedup) :=
    List.sorted_insertionSort (· ≤ ·) l.dedup
  have hn : (List.insertionSort (· ≤ ·) l.dedup).Nodup :=
    ((List.perm_insertionSort (· ≤ ·) l.dedup).symm).nodup (List.nodup_dedup l)
  exact (hs.and hn).imp (fun h => lt_of_le_of_ne h.1 h.2)

/-- Claim C4 (confirmed): in a multi-frame bake the planned times are
strictly ascending (also after the timeline-selection restriction), both
passes walk the plan in that order, and the host trace is the whole pass-A
capture sequence followed by the whole pass-B apply sequence — every
capture of every planned (time, node) pair happens before any apply. -/
theorem multiple_frames_two_pass (key_query : String → List ℚ)
    (targets : List String) (lo hi : ℚ) :
    List.Pairwise (· < ·) ((collect_keyframes_all key_query targets).map Prod.fst)
    ∧ List.Pairwise (· < ·)
        ((restrict_to_selection (collect_keyframes_all key_query targets) lo hi).map
          Prod.fst)
    ∧ multiple_frames_trace (collect_keyframes_all key_query targets) =
        pass_a_events (collect_keyframes_all key_query targets)
          ++ pass_b_events (collect_keyframes_all key_query targets)
    ∧ pass_a_events (collect_keyframes_all key_query targets) =
        (collect_keyframes_all key_query targets).flatMap
          (fun fr => fr.2.map (fun n => BakeEvent.capture fr.1 n))
    ∧ pass_b_events (collect_keyframes_all key_query targets) =
        (collect_keyframes_all key_query targets).flatMap
          (fun fr => fr.2.map (fun n => BakeEvent.apply fr.1 n))
    ∧ (∀ e ∈ pass_a_events (collect_keyframes_all key_query targets),
        e.isCapture = true)
    ∧ (∀ e ∈ pass_b_events (collect_keyframes_all key_query targets),
        e.isCapture = false)
    ∧ (∀ fr ∈ collect_keyframes_all key_query targets, ∀ n ∈ fr.2,
        BakeEvent.capture fr.1 n ∈ pass_a_events (collect_keyframes_all key_query targets)) := by
  have hplanfst : (collect_keyframes_all key_query targets).map Prod.fst =
      List.insertionSort (· ≤ ·) ((targets.map key_query).flatten.dedup) := by
    rw [collect_keyframes_all, List.map_map]
    have hcomp : (Prod.fst ∘ fun frame : ℚ =>
        (frame, targets.filter (fun t => decide (frame ∈ key_query t)))) = id := rfl
    rw [hcomp, List.map_id]
  have hsorted : List.Pairwise (· < ·)
      ((collect_keyframes_all key_query targets).map Prod.fst) := by
    rw [hplanfst]
    exact sorted_lt_of_sort_dedup _
  have hA : pass_a_events (collect_keyframes_all key_query targets) =
      (collect_keyframes_all key_query targets).flatMap
        (fun fr => fr.2.map (fun n => BakeEvent.capture fr.1 n)) := by
    rw [pass_a_events, foldl_append_eq_bind, List.nil_append]
  have hB : pass_b_events (collect_keyframes_all key_query targets) =
      (collect_keyframes_all key_query targets).flatMap
        (fun fr => fr.2.map (fun n => BakeEvent.apply fr.1 n)) := by
    rw [pass_b_events, foldl_append_eq_bind, List.nil_append]
  refine ⟨hsorted, ?_, rfl, hA, hB, ?_, ?_, ?_⟩
  · have hpair : (collect_keyframes_all key_query targets).Pairwise
        (fun a b => a.1 < b.1) := (List.pairwise_map).mp hsorted
    have hpairf : ((restrict_to_selection (collect_keyframes_all key_query targets)
        lo hi)).Pairwise (fun a b => a.1 < b.1) := hpair.filter _
    exact (List.pairwise_map).mpr hpairf
  · intro e he
    rw [hA] at he
    rcases List.mem_flatMap.mp he with ⟨fr, _, he2⟩
    rcases List.mem_map.mp he2 with ⟨n, _, rfl⟩
    rfl
  · intro e he
    rw [hB] at he
    rcases List.mem_flatMap.mp he with ⟨fr, _, he2⟩
    rcases List.mem_map.mp he2 with ⟨n, _, rfl⟩
    rfl
  · intro fr hfr n hn
    rw [hA]
    exact List.mem_flatMap.mpr ⟨fr, hfr, List.mem_map.mpr ⟨n, hn, rfl⟩⟩

/-! ### The host current-time cursor during `multiple_frames` (restoration) -/

/-- The outcome of one `multiple_frames` run: either the bake completed, or
an exception aborted it during pass B; either way the host's final
current-time cursor value is recorded. -/
inductive BakeOutcome where
  | completed (final_time : ℚ)
  | aborted (final_time : ℚ)
deriving DecidableEq, Repr

/-- Pass A's cursor movement: `cmds.currentTime(frame)` once per planned
frame (the world-matrix reads of pass A do not move time further). -/
def pass_a_time (plan : List (ℚ × List String)) (tm : ℚ) : ℚ :=
  plan.foldl (fun _ fr => fr.1) tm

/-- One pass-B frame: per node, `cmds.currentTime(frame)` then `do_xform`;
`do_fail frame node` injects a host exception raised by the `do_xform`
write, which aborts the bake with the cursor left at `frame`. -/
def pass_b_frame (do_fail : ℚ → String → Bool) (frame : ℚ) :
    List String → ℚ → Except ℚ ℚ
  | [], tm => Except.ok tm
  | n :: ns, _ =>
    if do_fail frame n then Except.error frame
    else pass_b_frame do_fail frame ns frame

/-- Pass B over the whole plan, threading the cursor. -/
def pass_b_time (do_fail : ℚ → String → Bool) :
    List (ℚ × List String) → ℚ → Except ℚ ℚ
  | [], tm => Except.ok tm
  | fr :: rest, tm =>
    match pass_b_frame do_fail fr.1 fr.2 tm with
    | Except.error tf => Except.error tf
    | Except.ok tm2 => pass_b_time do_fail rest tm2

/-- The current-time cursor through one `multiple_frames` run:
`current_time = cmds.currentTime(q=True)` is saved before pass A, the
passes move the cursor, and `cmds.currentTime(current_time)` runs only at
the end of the `try` body — the `finally` block only deletes the timeline
marker, so an exception during pass B leaves the cursor unrestored. -/
def multiple_frames_time (do_fail : ℚ → String → Bool)
    (plan : List (ℚ × List String)) (t0 : ℚ) : BakeOutcome :=
  let current_time := t0
  let tA := pass_a_time plan t0
  match pass_b_time do_fail plan tA with
  | Except.error tf => BakeOutcome.aborted tf
  | Except.ok _ => BakeOutcome.completed current_time

/-- Claim C5 counterexample: a bake over frames 1, 5, 10 starting at time 0
whose `do_xform` write raises at frame 5 ends with the cursor at 5, not
restored to 0 — the restoration is skipped on the exception exit path. -/
theorem multiple_frames_time_not_restored_cex :
    multiple_frames_time (fun f _ => decide (f = 5))
        [(1, ["a"]), (5, ["a"]), (10, ["a"])] 0
      = BakeOutcome.aborted 5
    ∧ BakeOutcome.aborted 5 ≠ BakeOutcome.completed 0
    ∧ (5 : ℚ) ≠ 0 := by decide

lemma pass_b_frame_ok (do_fail : ℚ → String → Bool) (frame : ℚ)
    (ns : List String) (tm : ℚ) (h : ∀ n ∈ ns, do_fail frame n = false) :
    ∃ tm2, pass_b_frame do_fail frame ns tm = Except.ok tm2 := by
  induction ns generalizing tm with
  | nil => exact ⟨tm, rfl⟩
  | cons n ns2 ih =>
    rw [pass_b_frame, h n (List.mem_cons_self n ns2)]
    exact ih frame (fun m hm => h m (List.mem_cons_of_mem n hm))

lemma pass_b_time_ok (do_fail : ℚ → String → Bool)
    (plan : List (ℚ × List String)) (tm : ℚ)
    (h : ∀ fr ∈ plan, ∀ n ∈ fr.2, do_fail fr.1 n = false) :
    ∃ tm2, pass_b_time do_fail plan tm = Except.ok tm2 := by
  induction plan generalizing tm with
  | nil => exact ⟨tm, rfl⟩
  | cons fr rest ih =>
    rcases pass_b_frame_ok do_fail fr.1 fr.2 tm
        (h fr (List.mem_cons_self fr rest)) with ⟨tm2, htm2⟩
    rw [pass_b_time, htm2]
    exact ih tm2 (fun fr2 hfr2 => h fr2 (List.mem_cons_of_mem fr hfr2))

/-- Claim C5 (amended): the cursor is restored to its pre-bake value on the
normal exit path — a run of `multiple_frames` in which no `do_xform` write
raises ends with the current time back at its starting value.  (The
exception path does NOT restore it: see the counterexample, where the
cursor is left at the failing frame.) -/
theorem multiple_frames_time_restores (do_fail : ℚ → String → Bool)
    (plan : List (ℚ × List String)) (t0 : ℚ)
    (h : ∀ fr ∈ plan, ∀ n ∈ fr.2, do_fail fr.1 n = false) :
    multiple_frames_time do_fail plan t0 = BakeOutcome.completed t0 := by
  rcases pass_b_time_ok do_fail plan (pass_a_time plan t0) h with ⟨tm2, htm2⟩
  rw [multiple_frames_time]
  rw [htm2]

/-- Witness for the amended C5 theorem: an exception-free three-frame bake
starting at time 0 ends with the cursor restored to 0. -/
theorem multiple_frames_time_restores_witness :
    multiple_frames_time (fun _ _ => false)
        [(1, ["a"]), (5, ["a"]), (10, ["a"])] 0
      = BakeOutcome.completed 0 :=
  multiple_frames_time_restores (fun _ _ => false)
    [(1, ["a"]), (5, ["a"]), (10, ["a"])] 0 (by decide)

/-! ### Scene state for `apply_changes` (enum writes, keyframes, world pose)

Per node the model tracks the keyframe times on the switch attribute, the
attribute's enum value, and an opaque world-pose sample (`cmds.xform`
matrix).  `do_xform` first queries the pose, then sets the enum attribute,
then re-applies the queried pose — which is why a successful write
preserves the world pose by construction. -/

structure NodeSt where
  keys : List ℚ
  value : ℤ
  pose : ℤ
deriving DecidableEq, Repr

def Scene : Type := String → NodeSt

/-- Point update of one node's record. -/
def update_node (sc : Scene) (n : String) (f : NodeSt → NodeSt) : Scene :=
  fun m => if m = n then f (sc n) else sc m

/-- `cmds.setAttr(f"{target}.{enum_attr}", enum_value)`. -/
def set_enum_attr (sc : Scene) (n : String) (v : ℤ) : Scene :=
  update_node sc n (fun st => NodeSt.mk st.keys v st.pose)

/-- `cmds.keyframe(attr_plug)` in the temporary-key branch: per the source
comment it records a key on the switch attribute at the current time. -/
def add_key_now (sc : Scene) (n : String) (t : ℚ) : Scene :=
  update_node sc n (fun st => NodeSt.mk (st.keys ++ [t]) st.value st.pose)

/-- `cmds.cutKey(f"{target}.{attr}", time=(frame,))`: removes the keys at
exactly that time. -/
def cut_key_at (sc : Scene) (n : String) (t : ℚ) : Scene :=
  update_node sc n (fun st => NodeSt.mk (st.keys.filter (fun k => k != t)) st.value st.pose)

/-- `SpaceSwitchAlehaWidget.do_xform`: query the world matrix, set the enum
attribute, re-apply the matrix.  `xfail target` injects a host exception
raised by the final `cmds.xform` write; the error carries the state at the
raise point (enum already set, pose not yet re-applied). -/
def do_xform_write (xfail : String → Bool) (sc : Scene) (target : String)
    (enum_value : ℤ) : Except Scene Scene :=
  let xform := (sc target).pose
  let sc1 := set_enum_attr sc target enum_value
  if xfail target then Except.error sc1
  else Except.ok (update_node sc1 target (fun st => NodeSt.mk st.keys st.value xform))

/-- The no-explicit-keys branch (case 3) of `apply_changes`: per target, if
the switch attribute has zero keys, key it at the current time and record
the temporary key, then `do_xform`; a raise stops the loop, returning the
temporary keys recorded so far (they are in scope for the `finally`
block). -/
def temp_key_loop (xfail : String → Bool) (enum_value : ℤ) (now : ℚ) :
    List String → Scene → List (String × ℚ) → Bool × Scene × List (String × ℚ)
  | [], sc, temps => (true, sc, temps)
  | target :: rest, sc, temps =>
    let existing_keys := (sc target).keys.length
    let sc1 := if existing_keys = 0 then add_key_now sc target now else sc
    let temps1 := if existing_keys = 0 then temps ++ [(target, now)] else temps
    match do_xform_write xfail sc1 target enum_value with
    | Except.error sc2 => (false, sc2, temps1)
    | Except.ok sc2 => temp_key_loop xfail enum_value now rest sc2 temps1

/-- The `finally` block's temporary-key removal:
`for target, attributes in temp_keyframes.items(): ... cmds.cutKey(...)`. -/
def cut_temp_keys (temps : List (String × ℚ)) (sc : Scene) : Scene :=
  temps.foldl (fun s p => cut_key_at s p.1 p.2) sc

/-- `apply_changes` along its case-3 path: run the temporary-key loop, then
(only if the loop raised nothing) the optional Euler filter —
`filter_fails` injects a host exception raised inside
`apply_euler_filter`, which nothing catches — and in the `finally` block
remove the recorded temporary keys.  The boolean result is `true` when the
whole operation completed without an exception propagating to the
caller. -/
def apply_changes_case3 (xfail : String → Bool) (euler_filter filter_fails : Bool)
    (enum_value : ℤ) (now : ℚ) (sorted_targets : List String) (sc : Scene) :
    Bool × Scene :=
  let r := temp_key_loop xfail enum_value now sorted_targets sc []
  let ok := r.1 && !(euler_filter && filter_fails)
  (ok, cut_temp_keys r.2.2 r.2.1)

lemma update_node_same (sc : Scene) (n : String) (f : NodeSt → NodeSt) :
    update_node sc n f n = f (sc n) := by
  rw [update_node, if_pos rfl]

lemma update_node_other (sc : Scene) (n : String) (f : NodeSt → NodeSt)
    (m : String) (h : m ≠ n) : update_node sc n f m = sc m := by
  rw [update_node, if_neg h]

lemma set_enum_attr_spec (sc : Scene) (n : String) (v : ℤ) (m : String) :
    ((set_enum_attr sc n v) m).keys = (sc m).keys
    ∧ ((set_enum_attr sc n v) m).pose = (sc m).pose
    ∧ ((set_enum_attr sc n v) m).value = (if m = n then v else (sc m).value) := by
  by_cases h : m = n
  · subst h
    rw [set_enum_attr, update_node_same]
    exact ⟨rfl, rfl, by rw [if_pos rfl]⟩
  · rw [set_enum_attr, update_node_other _ _ _ _ h]
    exact ⟨rfl, rfl, by rw [if_neg h]⟩

lemma add_key_now_spec (sc : Scene) (n : String) (t : ℚ) (m : String) :
    ((add_key_now sc n t) m).keys = (if m = n then (sc m).keys ++ [t] else (sc m).keys)
    ∧ ((add_key_now sc n t) m).pose = (sc m).pose
    ∧ ((add_key_now sc n t) m).value = (sc m).value := by
  by_cases h : m = n
  · subst h
    rw [add_key_now, update_node_same]
    exact ⟨by rw [if_pos rfl], rfl, rfl⟩
  · rw [add_key_now, update_node_other _ _ _ _ h]
    exact ⟨by rw [if_neg h], rfl, rfl⟩

lemma cut_key_at_spec (sc : Scene) (n : String) (t : ℚ) (m : String) :
    ((cut_key_at sc n t) m).keys =
      (if m = n then (sc m).keys.filter (fun k => k != t) else (sc m).keys)
    ∧ ((cut_key_at sc n t) m).pose = (sc m).pose
    ∧ ((cut_key_at sc n t) m).value = (sc m).value := by
  by_cases h : m = n
  · subst h
    rw [cut_key_at, update_node_same]
    exact ⟨by rw [if_pos rfl], rfl, rfl⟩
  · rw [cut_key_at, update_node_other _ _ _ _ h]
    exact ⟨by rw [if_neg h], rfl, rfl⟩

lemma do_xform_write_true (xfail : String → Bool) (sc : Scene) (t : String)
    (ev : ℤ) (h : xfail t = true) :
    do_xform_write xfail sc t ev = Except.error (set_enum_attr sc t ev) := by
  simp [do_xform_write, h]

lemma do_xform_write_false (xfail : String → Bool) (sc : Scene) (t : String)
    (ev : ℤ) (h : xfail t = false) :
    do_xform_write xfail sc t ev =
      Except.ok (update_node (set_enum_attr sc t ev) t
        (fun st => NodeSt.mk st.keys st.value (sc t).pose)) := by
  simp [do_xform_write, h]

lemma do_xform_ok_scene_spec (sc : Scene) (t : String) (ev : ℤ) (m : String) :
    ((update_node (set_enum_attr sc t ev) t
        (fun st => NodeSt.mk st.keys st.value (sc t).pose)) m).keys = (sc m).keys
    ∧ ((update_node (set_enum_attr sc t ev) t
        (fun st => NodeSt.mk st.keys st.value (sc t).pose)) m).pose = (sc m).pose
    ∧ ((update_node (set_enum_attr sc t ev) t
        (fun st => NodeSt.mk st.keys st.value (sc t).pose)) m).value =
      (if m = t then ev else (sc m).value) := by
  by_cases h : m = t
  · subst h
    rw [update_node_same]
    refine ⟨?_, ?_, ?_⟩
    · show ((set_enum_attr sc m ev) m).keys = (sc m).keys
      exact (set_enum_attr_spec sc m ev m).1
    · rfl
    · show ((set_enum_attr sc m ev) m).value = _
      exact (set_enum_attr_spec sc m ev m).2.2
  · rw [update_node_other _ _ _ _ h]
    exact ⟨(set_enum_attr_spec sc t ev m).1, (set_enum_attr_spec sc t ev m).2.1,
      (set_enum_attr_spec sc t ev m).2.2⟩

lemma error_scene_spec (sc : Scene) (t : String) (ev : ℤ) (m : String) :
    ((set_enum_attr sc t ev) m).keys = (sc m).keys
    ∧ ((set_enum_attr sc t ev) m).pose = (sc m).pose :=
  ⟨(set_enum_attr_spec sc t ev m).1, (set_enum_attr_spec sc t ev m).2.1⟩

/-- The scene after a successful `do_xform` on `target`: enum set, world
pose re-applied (hence unchanged). -/
def xform_ok_scene (sc : Scene) (t : String) (ev : ℤ) : Scene :=
  update_node (set_enum_attr sc t ev) t
    (fun st => NodeSt.mk st.keys st.value (sc t).pose)

lemma set_enum_attr_other (sc : Scene) (n : String) (v : ℤ) (m : String)
    (h : m ≠ n) : set_enum_attr sc n v m = sc m :=
  update_node_other sc n _ m h

lemma add_key_now_other (sc : Scene) (n : String) (t : ℚ) (m : String)
    (h : m ≠ n) : add_key_now sc n t m = sc m :=
  update_node_other sc n _ m h

lemma xform_ok_scene_other (sc : Scene) (t : String) (ev : ℤ) (m : String)
    (h : m ≠ t) : xform_ok_scene sc t ev m = sc m := by
  rw [xform_ok_scene, update_node_other _ _ _ _ h, set_enum_attr_other _ _ _ _ h]

lemma xform_ok_scene_spec (sc : Scene) (t : String) (ev : ℤ) (m : String) :
    ((xform_ok_scene sc t ev) m).keys = (sc m).keys
    ∧ ((xform_ok_scene sc t ev) m).pose = (sc m).pose
    ∧ ((xform_ok_scene sc t ev) m).value = (if m = t then ev else (sc m).value) :=
  do_xform_ok_scene_spec sc t ev m

lemma temp_key_loop_step_keyed_fail (xfail : String → Bool) (ev : ℤ) (now : ℚ)
    (t : String) (rest : List String) (sc : Scene) (temps : List (String × ℚ))
    (hk : (sc t).keys.length = 0) (hx : xfail t = true) :
    temp_key_loop xfail ev now (t :: rest) sc temps =
      (false, set_enum_attr (add_key_now sc t now) t ev, temps ++ [(t, now)]) := by
  simp [temp_key_loop, do_xform_write, hk, hx]

lemma temp_key_loop_step_keyed_ok (xfail : String → Bool) (ev : ℤ) (now : ℚ)
    (t : String) (rest : List String) (sc : Scene) (temps : List (String × ℚ))
    (hk : (sc t).keys.length = 0) (hx : xfail t = false) :
    temp_key_loop xfail ev now (t :: rest) sc temps =
      temp_key_loop xfail ev now rest (xform_ok_scene (add_key_now sc t now) t ev)
        (temps ++ [(t, now)]) := by
  simp [temp_key_loop, do_xform_write, xform_ok_scene, hk, hx]

lemma temp_key_loop_step_unkeyed_fail (xfail : String → Bool) (ev : ℤ) (now : ℚ)
    (t : String) (rest : List String) (sc : Scene) (temps : List (String × ℚ))
    (hk : ¬ (sc t).keys.length = 0) (hx : xfail t = true) :
    temp_key_loop xfail ev now (t :: rest) sc temps =
      (false, set_enum_attr sc t ev, temps) := by
  simp [temp_key_loop, do_xform_write, hk, hx]

lemma temp_key_loop_step_unkeyed_ok (xfail : String → Bool) (ev : ℤ) (now : ℚ)
    (t : String) (rest : List String) (sc : Scene) (temps : List (String × ℚ))
    (hk : ¬ (sc t).keys.length = 0) (hx : xfail t = false) :
    temp_key_loop xfail ev now (t :: rest) sc temps =
      temp_key_loop xfail ev now rest (xform_ok_scene sc t ev) temps := by
  simp [temp_key_loop, do_xform_write, xform_ok_scene, hk, hx]

lemma temp_key_loop_untouched (xfail : String → Bool) (ev : ℤ) (now : ℚ)
    (targets : List String) :
    ∀ (sc : Scene) (temps : List (String × ℚ)) (m : String), m ∉ targets →
      ((temp_key_loop xfail ev now targets sc temps).2.1) m = sc m := by
  induction targets with
  | nil => intro sc temps m _; rfl
  | cons t rest ih =>
    intro sc temps m hm
    have hmt : m ≠ t := fun hc => hm (hc ▸ List.mem_cons_self t rest)
    have hmr : m ∉ rest := fun hc => hm (List.mem_cons_of_mem t hc)
    by_cases hk : (sc t).keys.length = 0 <;> by_cases hx : xfail t = true
    · rw [temp_key_loop_step_keyed_fail xfail ev now t rest sc temps hk hx]
      show set_enum_attr (add_key_now sc t now) t ev m = sc m
      rw [set_enum_attr_other _ _ _ _ hmt, add_key_now_other _ _ _ _ hmt]
    · rw [temp_key_loop_step_keyed_ok xfail ev now t rest sc temps hk
        (Bool.not_eq_true _ ▸ hx)]
      rw [ih _ _ m hmr, xform_ok_scene_other _ _ _ _ hmt,
        add_key_now_other _ _ _ _ hmt]
    · rw [temp_key_loop_step_unkeyed_fail xfail ev now t rest sc temps hk hx]
      show set_enum_attr sc t ev m = sc m
      rw [set_enum_attr_other _ _ _ _ hmt]
    · rw [temp_key_loop_step_unkeyed_ok xfail ev now t rest sc temps hk
        (Bool.not_eq_true _ ▸ hx)]
      rw [ih _ _ m hmr, xform_ok_scene_other _ _ _ _ hmt]

lemma temp_key_loop_keys_from (xfail : String → Bool) (ev : ℤ) (now : ℚ)
    (targets : List String) :
    ∀ (sc : Scene) (temps : List (String × ℚ)) (m : String) (k : ℚ),
      k ∈ (((temp_key_loop xfail ev now targets sc temps).2.1) m).keys →
      k ∈ (sc m).keys ∨ k = now := by
  induction targets with
  | nil => intro sc temps m k hk2; exact Or.inl hk2
  | cons t rest ih =>
    intro sc temps m k hk2
    have hstep : ∀ sc2 : Scene,
        (∀ m2, (sc2 m2).keys = (add_key_now sc t now m2).keys) →
        k ∈ (sc2 m).keys → k ∈ (sc m).keys ∨ k = now := by
      intro sc2 hsc2 hkm
      rw [hsc2 m, (add_key_now_spec sc t now m).1] at hkm
      by_cases hmt : m = t
      · rw [if_pos hmt] at hkm
        rcases List.mem_append.mp hkm with h | h
        · exact Or.inl h
        · exact Or.inr (List.mem_singleton.mp h)
      · rw [if_neg hmt] at hkm
        exact Or.inl hkm
    by_cases hk : (sc t).keys.length = 0 <;> by_cases hx : xfail t = true
    · rw [temp_key_loop_step_keyed_fail xfail ev now t rest sc temps hk hx] at hk2
      exact hstep _ (fun m2 => (set_enum_attr_spec (add_key_now sc t now) t ev m2).1) hk2
    · rw [temp_key_loop_step_keyed_ok xfail ev now t rest sc temps hk
        (Bool.not_eq_true _ ▸ hx)] at hk2
      rcases ih _ _ m k hk2 with h | h
      · exact hstep _ (fun m2 => (xform_ok_scene_spec (add_key_now sc t now) t ev m2).1) h
      · exact Or.inr h
    · rw [temp_key_loop_step_unkeyed_fail xfail ev now t rest sc temps hk hx] at hk2
      have : k ∈ (sc m).keys := by
        rw [(set_enum_attr_spec sc t ev m).1] at hk2
        exact hk2
      exact Or.inl this
    · rw [temp_key_loop_step_unkeyed_ok xfail ev now t rest sc temps hk
        (Bool.not_eq_true _ ▸ hx)] at hk2
      rcases ih _ _ m k hk2 with h | h
      · rw [(xform_ok_scene_spec sc t ev m).1] at h
        exact Or.inl h
      · exact Or.inr h

lemma temp_key_loop_temps_mono (xfail : String → Bool) (ev : ℤ) (now : ℚ)
    (targets : List String) :
    ∀ (sc : Scene) (temps : List (String × ℚ)) (p : String × ℚ), p ∈ temps →
      p ∈ (temp_key_loop xfail ev now targets sc temps).2.2 := by
  induction targets with
  | nil => intro sc temps p hp; exact hp
  | cons t rest ih =>
    intro sc temps p hp
    by_cases hk : (sc t).keys.length = 0 <;> by_cases hx : xfail t = true
    · rw [temp_key_loop_step_keyed_fail xfail ev now t rest sc temps hk hx]
      exact List.mem_append_left _ hp
    · rw [temp_key_loop_step_keyed_ok xfail ev now t rest sc temps hk
        (Bool.not_eq_true _ ▸ hx)]
      exact ih _ _ p (List.mem_append_left _ hp)
    · rw [temp_key_loop_step_unkeyed_fail xfail ev now t rest sc temps hk hx]
      exact hp
    · rw [temp_key_loop_step_unkeyed_ok xfail ev now t rest sc temps hk
        (Bool.not_eq_true _ ▸ hx)]
      exact ih _ _ p hp

lemma temp_key_loop_zero_keys (xfail : String → Bool) (ev : ℤ) (now : ℚ)
    (targets : List String) :
    ∀ (sc : Scene) (temps : List (String × ℚ)) (m : String), (sc m).keys = [] →
      (((temp_key_loop xfail ev now targets sc temps).2.1) m).keys = []
      ∨ (m, now) ∈ (temp_key_loop xfail ev now targets sc temps).2.2 := by
  induction targets with
  | nil => intro sc temps m hm; exact Or.inl hm
  | cons t rest ih =>
    intro sc temps m hm
    by_cases hmt : m = t
    · subst hmt
      have hk : (sc m).keys.length = 0 := by rw [hm]; rfl
      by_cases hx : xfail m = true
      · rw [temp_key_loop_step_keyed_fail xfail ev now m rest sc temps hk hx]
        exact Or.inr (List.mem_append_right _ (List.mem_singleton.mpr rfl))
      · rw [temp_key_loop_step_keyed_ok xfail ev now m rest sc temps hk
          (Bool.not_eq_true _ ▸ hx)]
        exact Or.inr (temp_key_loop_temps_mono xfail ev now rest _ _ (m, now)
          (List.mem_append_right _ (List.mem_singleton.mpr rfl)))
    · by_cases hk : (sc t).keys.length = 0 <;> by_cases hx : xfail t = true
      · rw [temp_key_loop_step_keyed_fail xfail ev now t rest sc temps hk hx]
        refine Or.inl ?_
        show ((set_enum_attr (add_key_now sc t now) t ev) m).keys = []
        rw [set_enum_attr_other _ _ _ _ hmt, add_key_now_other _ _ _ _ hmt]
        exact hm
      · rw [temp_key_loop_step_keyed_ok xfail ev now t rest sc temps hk
          (Bool.not_eq_true _ ▸ hx)]
        refine ih _ _ m ?_
        rw [xform_ok_scene_other _ _ _ _ hmt, add_key_now_other _ _ _ _ hmt]
        exact hm
      · rw [temp_key_loop_step_unkeyed_fail xfail ev now t rest sc temps hk hx]
        refine Or.inl ?_
        show ((set_enum_attr sc t ev) m).keys = []
        rw [set_enum_attr_other _ _ _ _ hmt]
        exact hm
      · rw [temp_key_loop_step_unkeyed_ok xfail ev now t rest sc temps hk
          (Bool.not_eq_true _ ▸ hx)]
        refine ih _ _ m ?_
        rw [xform_ok_scene_other _ _ _ _ hmt]
        exact hm

lemma temp_key_loop_ok_of_no_fail (xfail : String → Bool) (ev : ℤ) (now : ℚ)
    (targets : List String) :
    ∀ (sc : Scene) (temps : List (String × ℚ)), (∀ t ∈ targets, xfail t = false) →
      (temp_key_loop xfail ev now targets sc temps).1 = true := by
  induction targets with
  | nil => intro sc temps _; rfl
  | cons t rest ih =>
    intro sc temps h
    have hx : xfail t = false := h t (List.mem_cons_self t rest)
    have hrest : ∀ t2 ∈ rest, xfail t2 = false :=
      fun t2 ht2 => h t2 (List.mem_cons_of_mem t ht2)
    by_cases hk : (sc t).keys.length = 0
    · rw [temp_key_loop_step_keyed_ok xfail ev now t rest sc temps hk hx]
      exact ih _ _ hrest
    · rw [temp_key_loop_step_unkeyed_ok xfail ev now t rest sc temps hk hx]
      exact ih _ _ hrest

lemma temp_key_loop_pose (xfail : String → Bool) (ev : ℤ) (now : ℚ)
    (targets : List String) :
    ∀ (sc : Scene) (temps : List (String × ℚ)) (m : String),
      (temp_key_loop xfail ev now targets sc temps).1 = true →
      (((temp_key_loop xfail ev now targets sc temps).2.1) m).pose = (sc m).pose := by
  induction targets with
  | nil => intro sc temps m _; rfl
  | cons t rest ih =>
    intro sc temps m hok
    by_cases hk : (sc t).keys.length = 0 <;> by_cases hx : xfail t = true
    · rw [temp_key_loop_step_keyed_fail xfail ev now t rest sc temps hk hx] at hok
      exact absurd hok Bool.false_ne_true
    · rw [temp_key_loop_step_keyed_ok xfail ev now t rest sc temps hk
        (Bool.not_eq_true _ ▸ hx)] at hok ⊢
      rw [ih _ _ m hok, (xform_ok_scene_spec (add_key_now sc t now) t ev m).2.1,
        (add_key_now_spec sc t now m).2.1]
    · rw [temp_key_loop_step_unkeyed_fail xfail ev now t rest sc temps hk hx] at hok
      exact absurd hok Bool.false_ne_true
    · rw [temp_key_loop_step_unkeyed_ok xfail ev now t rest sc temps hk
        (Bool.not_eq_true _ ▸ hx)] at hok ⊢
      rw [ih _ _ m hok, (xform_ok_scene_spec sc t ev m).2.1]

lemma temp_key_loop_value (xfail : String → Bool) (ev : ℤ) (now : ℚ)
    (targets : List String) :
    ∀ (sc : Scene) (temps : List (String × ℚ)) (n : String), n ∈ targets →
      (temp_key_loop xfail ev now targets sc temps).1 = true →
      (((temp_key_loop xfail ev now targets sc temps).2.1) n).value = ev := by
  induction targets with
  | nil => intro sc temps n hn _; exact absurd hn (List.not_mem_nil n)
  | cons t rest ih =>
    intro sc temps n hn hok
    by_cases hk : (sc t).keys.length = 0 <;> by_cases hx : xfail t = true
    · rw [temp_key_loop_step_keyed_fail xfail ev now t rest sc temps hk hx] at hok
      exact absurd hok Bool.false_ne_true
    · rw [temp_key_loop_step_keyed_ok xfail ev now t rest sc temps hk
        (Bool.not_eq_true _ ▸ hx)] at hok ⊢
      by_cases hnr : n ∈ rest
      · exact ih _ _ n hnr hok
      · have hnt : n = t := by
          rcases List.mem_cons.mp hn with h | h
          · exact h
          · exact absurd h hnr
        subst hnt
        rw [temp_key_loop_untouched xfail ev now rest _ _ n hnr,
          (xform_ok_scene_spec (add_key_now sc n now) n ev n).2.2, if_pos rfl]
    · rw [temp_key_loop_step_unkeyed_fail xfail ev now t rest sc temps hk hx] at hok
      exact absurd hok Bool.false_ne_true
    · rw [temp_key_loop_step_unkeyed_ok xfail ev now t rest sc temps hk
        (Bool.not_eq_true _ ▸ hx)] at hok ⊢
      by_cases hnr : n ∈ rest
      · exact ih _ _ n hnr hok
      · have hnt : n = t := by
          rcases List.mem_cons.mp hn with h | h
          · exact h
          · exact absurd h hnr
        subst hnt
        rw [temp_key_loop_untouched xfail ev now rest _ _ n hnr,
          (xform_ok_scene_spec sc n ev n).2.2, if_pos rfl]

lemma cut_temp_keys_value_pose (temps : List (String × ℚ)) :
    ∀ (sc : Scene) (m : String),
      ((cut_temp_keys temps sc) m).value = (sc m).value
      ∧ ((cut_temp_keys temps sc) m).pose = (sc m).pose := by
  induction temps with
  | nil => intro sc m; exact ⟨rfl, rfl⟩
  | cons p rest ih =>
    intro sc m
    show ((cut_temp_keys rest (cut_key_at sc p.1 p.2)) m).value = _
      ∧ ((cut_temp_keys rest (cut_key_at sc p.1 p.2)) m).pose = _
    rw [(ih _ m).1, (ih _ m).2, (cut_key_at_spec sc p.1 p.2 m).2.1,
      (cut_key_at_spec sc p.1 p.2 m).2.2]
    exact ⟨rfl, rfl⟩

lemma cut_temp_keys_keys_subset (temps : List (String × ℚ)) :
    ∀ (sc : Scene) (m : String) (k : ℚ),
      k ∈ ((cut_temp_keys temps sc) m).keys → k ∈ (sc m).keys := by
  induction temps with
  | nil => intro sc m k hk; exact hk
  | cons p rest ih =>
    intro sc m k hk
    have h1 : k ∈ ((cut_key_at sc p.1 p.2) m).keys := ih _ m k hk
    rw [(cut_key_at_spec sc p.1 p.2 m).1] at h1
    by_cases hm : m = p.1
    · rw [if_pos hm] at h1
      exact (List.mem_filter.mp h1).1
    · rw [if_neg hm] at h1
      exact h1

lemma cut_temp_keys_removed (temps : List (String × ℚ)) :
    ∀ (sc : Scene) (m : String) (tt : ℚ), (m, tt) ∈ temps →
      ∀ k ∈ ((cut_temp_keys temps sc) m).keys, k ≠ tt := by
  induction temps with
  | nil => intro sc m tt hmem; exact absurd hmem (List.not_mem_nil _)
  | cons p rest ih =>
    intro sc m tt hmem k hk
    by_cases hp : (m, tt) ∈ rest
    · exact ih _ m tt hp k hk
    · have hpe : p = (m, tt) := by
        rcases List.mem_cons.mp hmem with h | h
        · exact h.symm
        · exact absurd h hp
      subst hpe
      have h1 : k ∈ ((cut_key_at sc m tt) m).keys :=
        cut_temp_keys_keys_subset rest _ m k hk
      rw [(cut_key_at_spec sc m tt m).1, if_pos rfl] at h1
      have h2 := (List.mem_filter.mp h1).2
      exact bne_iff_ne.mp h2

/-- Claim C6 (confirmed): for a target whose switch attribute has zero
keys, the case-3 path of `apply_changes` (current time, no interval,
all-frames off) keys the attribute transiently and the `finally` cleanup
removes that key on every exit path — including when the `do_xform` write
raises — leaving zero keys afterwards; and when the operation completes,
the node's enum value is the chosen index and its world pose is unchanged
(the write re-applies the captured matrix).  The operation does complete
when no write raises. -/
theorem temp_key_cleanup (xfail : String → Bool) (ev : ℤ) (now : ℚ)
    (targets : List String) (sc : Scene) (n : String)
    (hn : n ∈ targets) (hkeys : (sc n).keys = []) :
    ((apply_changes_case3 xfail false false ev now targets sc).2 n).keys = []
    ∧ ((apply_changes_case3 xfail false false ev now targets sc).1 = true →
        ((apply_changes_case3 xfail false false ev now targets sc).2 n).value = ev
        ∧ ((apply_changes_case3 xfail false false ev now targets sc).2 n).pose
            = (sc n).pose)
    ∧ ((∀ t ∈ targets, xfail t = false) →
        (apply_changes_case3 xfail false false ev now targets sc).1 = true) := by
  have hfst : (apply_changes_case3 xfail false false ev now targets sc).1 =
      (temp_key_loop xfail ev now targets sc []).1 := by
    show ((temp_key_loop xfail ev now targets sc []).1 && !(false && false))
      = (temp_key_loop xfail ev now targets sc []).1
    rw [Bool.and_false, Bool.not_false, Bool.and_true]
  have hsnd : (apply_changes_case3 xfail false false ev now targets sc).2 =
      cut_temp_keys (temp_key_loop xfail ev now targets sc []).2.2
        (temp_key_loop xfail ev now targets sc []).2.1 := rfl
  refine ⟨?_, ?_, ?_⟩
  · rw [hsnd]
    rcases temp_key_loop_zero_keys xfail ev now targets sc [] n hkeys with h | h
    · rw [List.eq_nil_iff_forall_not_mem]
      intro k hk
      have h2 := cut_temp_keys_keys_subset _ _ n k hk
      rw [h] at h2
      exact absurd h2 (List.not_mem_nil k)
    · rw [List.eq_nil_iff_forall_not_mem]
      intro k hk
      have hkne := cut_temp_keys_removed _ _ n now h k hk
      have h2 := cut_temp_keys_keys_subset _ _ n k hk
      rcases temp_key_loop_keys_from xfail ev now targets sc [] n k h2 with h3 | h3
      · rw [hkeys] at h3
        exact absurd h3 (List.not_mem_nil k)
      · exact hkne h3
  · intro hok
    rw [hfst] at hok
    rw [hsnd]
    constructor
    · rw [(cut_temp_keys_value_pose _ _ n).1]
      exact temp_key_loop_value xfail ev now targets sc [] n hn hok
    · rw [(cut_temp_keys_value_pose _ _ n).2]
      exact temp_key_loop_pose xfail ev now targets sc [] n hok
  · intro hnf
    rw [hfst]
    exact temp_key_loop_ok_of_no_fail xfail ev now targets sc [] hnf

/-- A concrete scene for witnesses: every node unkeyed, enum 0, pose 7. -/
def scene0 : Scene := fun _ => NodeSt.mk [] 0 7

/-- Witness for the C6 theorem: switching nodes `a`, `b` (both unkeyed) to
enum 3 at time 7 with no failure leaves zero keys on `a`. -/
theorem temp_key_cleanup_witness :
    ((apply_changes_case3 (fun _ => false) false false 3 7 ["a", "b"] scene0).2 "a").keys
      = [] :=
  (temp_key_cleanup (fun _ => false) 3 7 ["a", "b"] scene0 "a" (by decide) rfl).1

/-- Claim C8 counterexample: with the Euler-filter step enabled and the
host's `cmds.filterCurve` raising, the apply operation does NOT complete —
the exception propagates to the caller (result flag `false`), uncaught and
unlogged; the same operation with the filter succeeding completes. -/
theorem euler_filter_failure_cex :
    (apply_changes_case3 (fun _ => false) true true 1 0 ["a"] scene0).1 = false
    ∧ (apply_changes_case3 (fun _ => false) true false 1 0 ["a"] scene0).1 = true := by
  constructor
  · rfl
  · rfl

/-- Claim C8 (amended): a failure raised inside the post-apply Euler-filter
step is not caught anywhere in `apply_changes` — it aborts the operation
and propagates to the caller as an exception; the `finally` cleanup still
runs first (temporary keys are removed) and the enum writes performed
before the filter stand. -/
theorem euler_filter_failure_propagates (xfail : String → Bool) (ev : ℤ)
    (now : ℚ) (targets : List String) (sc : Scene) (n : String)
    (hx : ∀ t ∈ targets, xfail t = false) (hn : n ∈ targets)
    (hkeys : (sc n).keys = []) :
    (apply_changes_case3 xfail true true ev now targets sc).1 = false
    ∧ ((apply_changes_case3 xfail true true ev now targets sc).2 n).keys = []
    ∧ ((apply_changes_case3 xfail true true ev now targets sc).2 n).value = ev := by
  have hok : (temp_key_loop xfail ev now targets sc []).1 = true :=
    temp_key_loop_ok_of_no_fail xfail ev now targets sc [] hx
  have hsnd : (apply_changes_case3 xfail true true ev now targets sc).2 =
      cut_temp_keys (temp_key_loop xfail ev now targets sc []).2.2
        (temp_key_loop xfail ev now targets sc []).2.1 := rfl
  refine ⟨?_, ?_, ?_⟩
  · show ((temp_key_loop xfail ev now targets sc []).1 && !(true && true)) = false
    rw [Bool.and_self, Bool.not_true, Bool.and_false]
  · rw [hsnd]
    rcases temp_key_loop_zero_keys xfail ev now targets sc [] n hkeys with h | h
    · rw [List.eq_nil_iff_forall_not_mem]
      intro k hk
      have h2 := cut_temp_keys_keys_subset _ _ n k hk
      rw [h] at h2
      exact absurd h2 (List.not_mem_nil k)
    · rw [List.eq_nil_iff_forall_not_mem]
      intro k hk
      have hkne := cut_temp_keys_removed _ _ n now h k hk
      have h2 := cut_temp_keys_keys_subset _ _ n k hk
      rcases temp_key_loop_keys_from xfail ev now targets sc [] n k h2 with h3 | h3
      · rw [hkeys] at h3
        exact absurd h3 (List.not_mem_nil k)
      · exact hkne h3
  · rw [hsnd, (cut_temp_keys_value_pose _ _ n).1]
    exact temp_key_loop_value xfail ev now targets sc [] n hn hok

/-- Witness for the amended C8 theorem at a concrete one-node scene. -/
theorem euler_filter_failure_propagates_witness :
    (apply_changes_case3 (fun _ => false) true true 5 2 ["a"] scene0).1 = false
    ∧ ((apply_changes_case3 (fun _ => false) true true 5 2 ["a"] scene0).2 "a").keys = []
    ∧ ((apply_changes_case3 (fun _ => false) true true 5 2 ["a"] scene0).2 "a").value = 5 :=
  euler_filter_failure_propagates (fun _ => false) 5 2 ["a"] scene0 "a"
    (by decide) (by decide) rfl

/-! ### The option dispatch table of `SpaceSwitchAlehaWidget.refresh`

`refresh` builds `options_and_objects` by iterating the group's member
nodes and, per node, `for i, o in enumerate(option["enum"])`: it appends
the node to the label's `objects` list and OVERWRITES the label's single
`index` field with `i`.  `apply_changes` then reads
`options_and_objects[enum_value]["index"]` once and writes that one index
to every target. -/

/-- One Python-dict update of the `options_and_objects` mapping for label
`o`: create the entry if absent, then append `obj` and set `index := i`. -/
def upsert_option : List (String × List String × ℕ) → String → String → ℕ →
    List (String × List String × ℕ)
  | [], o, obj, i => [(o, [obj], i)]
  | e :: rest, o, obj, i =>
    if e.1 = o then (e.1, e.2.1 ++ [obj], i) :: rest
    else e :: upsert_option rest o obj i

/-- The whole `options_and_objects` construction over the group's members
(`members` lists each node with its own cleaned option labels, in the
iteration order of `enum_objects_current["objects"].items()`). -/
def options_and_objects (members : List (String × List String)) :
    List (String × List String × ℕ) :=
  members.foldl
    (fun d2 m => (m.2.enum).foldl (fun d3 p => upsert_option d3 p.2 m.1 p.1) d2) []

/-- `options_and_objects[label]` as read by `apply_changes`: the target
node list and the single stored enum index. -/
def option_entry (d : List (String × List String × ℕ)) (label : String) :
    Option (List String × ℕ) :=
  (d.find? (fun e => e.1 == label)).map Prod.snd

/-- Just the stored `index` field for a label. -/
def option_index (d : List (String × List String × ℕ)) (label : String) :
    Option ℕ :=
  (d.find? (fun e => e.1 == label)).map (fun e => e.2.2)

/-- Specification-side description: the position of the LAST occurrence of
`label` in one node's enumerated option list. -/
def last_found (ps : List (ℕ × String)) (label : String) : Option ℕ :=
  (ps.reverse.find? (fun q => q.2 == label)).map Prod.fst

/-- Specification-side description of the stored index: the last member
node (in iteration order) whose options contain `label` supplies it, with
the label's last position in that node's own list. -/
def last_local_index (members : List (String × List String)) (label : String) :
    Option ℕ :=
  members.reverse.findSome? (fun m => last_found m.2.enum label)

/-- The write loop of `apply_changes`: the same `enum_index` is written to
every target (`self.do_xform(target, enum_attr, enum_index)`). -/
def apply_enum_writes (sc : Scene) (targets : List String) (enum_index : ℤ) :
    Scene :=
  targets.foldl (fun s t => set_enum_attr s t enum_index) sc

lemma option_index_cons (e : String × List String × ℕ)
    (rest : List (String × List String × ℕ)) (label : String) :
    option_index (e :: rest) label =
      if e.1 == label then some e.2.2 else option_index rest label := by
  by_cases hp : (e.1 == label) = true
  · rw [option_index, @List.find?_cons_of_pos _ (fun q => q.1 == label) e rest hp,
      if_pos hp]
    rfl
  · rw [option_index, @List.find?_cons_of_neg _ (fun q => q.1 == label) e rest hp,
      if_neg hp]
    rfl

lemma option_index_upsert (d : List (String × List String × ℕ))
    (o obj : String) (i : ℕ) (label : String) :
    option_index (upsert_option d o obj i) label =
      if label = o then some i else option_index d label := by
  induction d with
  | nil =>
    show option_index [(o, [obj], i)] label = _
    rw [option_index_cons]
    by_cases h : label = o
    · rw [if_pos (beq_iff_eq.mpr h.symm), if_pos h]
    · rw [if_neg (fun hc => h (beq_iff_eq.mp hc).symm), if_neg h]
  | cons e rest ih =>
    by_cases he : e.1 = o
    · show option_index (if e.1 = o then (e.1, e.2.1 ++ [obj], i) :: rest
        else e :: upsert_option rest o obj i) label = _
      rw [if_pos he, option_index_cons, option_index_cons]
      by_cases hl : label = e.1
      · rw [if_pos (beq_iff_eq.mpr hl.symm), if_pos (hl.trans he)]
      · rw [if_neg (fun hc => hl (beq_iff_eq.mp hc).symm),
          if_neg (fun hc => hl (hc.trans he.symm)),
          if_neg (fun hc => hl (beq_iff_eq.mp hc).symm)]
    · show option_index (if e.1 = o then (e.1, e.2.1 ++ [obj], i) :: rest
        else e :: upsert_option rest o obj i) label = _
      rw [if_neg he, option_index_cons, option_index_cons]
      by_cases hel : (e.1 == label) = true
      · have hlabel : ¬ label = o := fun hc => he ((beq_iff_eq.mp hel).trans hc)
        rw [if_pos hel, if_neg hlabel, if_pos hel]
      · rw [if_neg hel, ih, if_neg hel]

lemma last_found_nil (label : String) : last_found [] label = none := rfl

lemma last_found_cons (p : ℕ × String) (rest : List (ℕ × String)) (label : String) :
    last_found (p :: rest) label =
      (last_found rest label).or (if p.2 == label then some p.1 else none) := by
  have h2 : (([p].find? (fun q => q.2 == label)).map Prod.fst) =
      (if p.2 == label then some p.1 else none) := by
    rw [List.find?_singleton]
    by_cases hp : (p.2 == label) = true
    · rw [if_pos hp, if_pos hp]
      rfl
    · rw [if_neg hp, if_neg hp]
      rfl
  rw [last_found, last_found, List.reverse_cons, List.find?_append,
    Option.map_or', h2]

lemma option_index_enum_fold (obj label : String) :
    ∀ (ps : List (ℕ × String)) (d : List (String × List String × ℕ)),
      option_index (ps.foldl (fun d2 p => upsert_option d2 p.2 obj p.1) d) label =
        (last_found ps label).or (option_index d label) := by
  intro ps
  induction ps with
  | nil =>
    intro d
    rw [List.foldl_nil, last_found_nil, Option.none_or]
  | cons p rest ih =>
    intro d
    rw [List.foldl_cons, ih, option_index_upsert, last_found_cons, Option.or_assoc]
    congr 1
    by_cases hp : label = p.2
    · rw [if_pos hp, if_pos (beq_iff_eq.mpr hp.symm), Option.or_some]
    · rw [if_neg hp, if_neg (fun hc => hp (beq_iff_eq.mp hc).symm), Option.none_or]

lemma option_index_members_fold (label : String) :
    ∀ (members : List (String × List String)) (d : List (String × List String × ℕ)),
      option_index (members.foldl
        (fun d2 m => (m.2.enum).foldl (fun d3 p => upsert_option d3 p.2 m.1 p.1) d2)
        d) label
      = (last_local_index members label).or (option_index d label) := by
  intro members
  induction members with
  | nil =>
    intro d
    have h0 : last_local_index [] label = none := rfl
    rw [List.foldl_nil, h0, Option.none_or]
  | cons m rest ih =>
    intro d
    rw [List.foldl_cons, ih, option_index_enum_fold]
    have hcons : last_local_index (m :: rest) label =
        (last_local_index rest label).or (last_found m.2.enum label) := by
      rw [last_local_index, last_local_index, List.reverse_cons,
        List.findSome?_append]
      congr 1
      rw [List.findSome?_cons]
      cases hf : last_found m.2.enum label with
      | some b => rfl
      | none => rfl
    rw [hcons, Option.or_assoc]

lemma apply_enum_writes_value (targets : List String) :
    ∀ (sc : Scene) (idx : ℤ) (m : String),
      ((apply_enum_writes sc targets idx) m).value =
        if m ∈ targets then idx else (sc m).value := by
  induction targets with
  | nil =>
    intro sc idx m
    rw [if_neg (List.not_mem_nil m)]
    rfl
  | cons t rest ih =>
    intro sc idx m
    show ((apply_enum_writes (set_enum_attr sc t idx) rest idx) m).value = _
    rw [ih]
    by_cases hm : m ∈ rest
    · rw [if_pos hm, if_pos (List.mem_cons_of_mem t hm)]
    · rw [if_neg hm, (set_enum_attr_spec sc t idx m).2.2]
      by_cases hmt : m = t
      · rw [if_pos hmt, if_pos (by rw [hmt]; exact List.mem_cons_self t rest)]
      · rw [if_neg hmt, if_neg (by
          intro hc
          rcases List.mem_cons.mp hc with h | h
          · exact hmt h
          · exact hm h)]

/-- Claim C3 counterexample: with members `n1 : [A, B]` and `n2 : [B, A]`,
the dispatch table stores the single index 1 for label `A` (overwritten by
`n2`, the last node listing it) with both nodes as targets, and the apply
loop writes 1 to `n1` — although `n1`'s own enum index for `A` is 0. -/
theorem options_index_not_per_node_cex :
    option_entry (options_and_objects [("n1", ["A", "B"]), ("n2", ["B", "A"])]) "A"
      = some (["n1", "n2"], 1)
    ∧ List.indexOf "A" ["A", "B"] = 0
    ∧ ((apply_enum_writes scene0 ["n1", "n2"] 1) "n1").value = 1
    ∧ (1 : ℕ) ≠ 0 := by
  refine ⟨?_, ?_, ?_, by decide⟩
  · rfl
  · rfl
  · rfl

/-- Claim C3 (amended): `apply_changes` writes ONE shared enum index to all
targets of the chosen label — the index stored in `options_and_objects`,
which equals the label's last position within the options of the LAST
member node (in iteration order) that lists the label — not each node's
own enum index for it. -/
theorem options_index_last_wins (members : List (String × List String))
    (label : String) (sc : Scene) (targets : List String) (idx : ℤ) :
    option_index (options_and_objects members) label = last_local_index members label
    ∧ (∀ n ∈ targets, ((apply_enum_writes sc targets idx) n).value = idx) := by
  constructor
  · rw [options_and_objects, option_index_members_fold]
    have h0 : option_index [] label = none := rfl
    rw [h0, Option.or_none]
  · intro n hn
    rw [apply_enum_writes_value, if_pos hn]
